import Mathlib

/-!
Verification development for the yuanjing-core evidence ledger.

The repository's core is an append-only authenticated log (a Merkle
Mountain Range) over digests of `Evidence` records (`src/mmr_store.rs`,
`src/evidence.rs`).  The MMR engine and the durable node store live in the
`ckb_merkle_mountain_range` dependency and in a persistent (sled-backed)
`EvidenceStore` that the benches call but whose source is not under `src/`;
those parts are modelled here from the specification (marked
`Modelled from the spec:`).  The thin orchestration visible in
`src/mmr_store.rs` (encode, leaf digest, push, size update, root) is
embedded directly.

Hashing (blake3) is modelled symbolically: a hash value is a free term,
`Hash.ofBytes p` standing for blake3(p) of a raw byte payload and
`Hash.ofPair l r` standing for blake3(l.bytes ++ r.bytes), idealizing
collision resistance of the fixed hash function.
-/

/-- Hash values. `ofBytes p` models the blake3 digest of raw payload bytes
`p`; `ofPair l r` models the blake3 digest of the 64-byte concatenation of
the two 32-byte hashes `l` and `r` (the parent-node construction of
`MergeBlake3::merge`). -/
inductive Hash : Type where
  | ofBytes : List Nat → Hash
  | ofPair : Hash → Hash → Hash
deriving DecidableEq, Repr

/-- Default hash value used with `List.getD` lookups. -/
def hashDefault : Hash := Hash.ofBytes []

/-- Merge strategy of `MergeBlake3::merge`: the parent hash is the hash of
the concatenation of the left child hash and the right child hash,
`merge(l, r) = H(l || r)`. -/
def merge (lhs rhs : Hash) : Hash := Hash.ofPair lhs rhs

/-- Error taxonomy of the core (spec section 7), restricted to the errors
the modelled operations can produce. -/
inductive CoreError : Type where
  | EncodingError : CoreError
  | EmptyLedger : CoreError
  | InvalidProofRequest : CoreError
deriving DecidableEq, Repr

/-- Perfect binary hash tree: one mountain (peak subtree) of the MMR.
Every node carries its stored 32-byte hash. -/
inductive PTree : Type where
  | leaf : Hash → PTree
  | node : Hash → PTree → PTree → PTree
deriving DecidableEq, Repr

/-- Stored hash at the root of a peak subtree. -/
def PTree.root : PTree → Hash
  | .leaf h => h
  | .node h _ _ => h

/-- Height of a peak subtree (a single leaf has height 0). -/
def PTree.height : PTree → Nat
  | .leaf _ => 0
  | .node _ l _ => l.height + 1

/-- Number of MMR nodes contained in a peak subtree. -/
def PTree.size : PTree → Nat
  | .leaf _ => 1
  | .node _ l r => l.size + r.size + 1

/-- Hashes of the subtree's nodes in MMR position order: all positions of
the left child, then all positions of the right child, then the root. -/
def PTree.post : PTree → List Hash
  | .leaf h => [h]
  | .node h l r => l.post ++ r.post ++ [h]

/-- Leaf tags of the subtree's nodes in MMR position order: `true` exactly
at the positions that hold leaves. -/
def PTree.postT : PTree → List Bool
  | .leaf _ => [true]
  | .node _ l r => l.postT ++ r.postT ++ [false]

/-- Structural well-formedness of a peak subtree: every internal node
stores `merge(leftRoot, rightRoot)` and both children have equal height
(the tree is perfect). -/
def PTree.wfB : PTree → Bool
  | .leaf _ => true
  | .node h l r =>
      decide (h = merge l.root r.root) && decide (l.height = r.height) &&
        l.wfB && r.wfB

/-- Carry-propagation loop of `append` (spec section 4.3, step 2).
Modelled from the spec: while the two most recently created peaks have
equal height, merge them — `merge(olderPeak, newerPeak)` — into a new
internal node, consuming both; the new node's hash is also accumulated in
the batch of newly created nodes.  The peak list is kept newest-first; the
fuel argument bounds the number of iterations by the initial list length
and is always sufficient. -/
def carryGo : Nat → List PTree → List Hash → List PTree × List Hash
  | 0, ps, acc => (ps, acc)
  | fuel + 1, t1 :: t2 :: rest, acc =>
      if t1.height = t2.height then
        let m := merge t2.root t1.root
        carryGo fuel (PTree.node m t2 t1 :: rest) (acc ++ [m])
      else (t1 :: t2 :: rest, acc)
  | _ + 1, ps, acc => (ps, acc)

/-- Carry propagation started with enough fuel. -/
def carry (ps : List PTree) (acc : List Hash) : List PTree × List Hash :=
  carryGo ps.length ps acc

/-- Ledger state of the evidence store.  Modelled from the spec: a durable
position-to-hash map (`store`, position `i` holding `store[i]`), the
durable node-count metadata `mmr_size`, and the current peak subtrees.
`rpeaks` is kept newest (rightmost, shortest) first and is derivable from
`mmr_size` and `store`. -/
structure EvidenceStore : Type where
  store : List Hash
  mmr_size : Nat
  rpeaks : List PTree
deriving DecidableEq, Repr

/-- Fresh empty ledger (`EvidenceStore::new` with no persisted state). -/
def EvidenceStore.new : EvidenceStore := ⟨[], 0, []⟩

/-- Engine append of one leaf digest (spec section 4.3, `append`): the leaf
takes position `mmr_size`, carry propagation creates the internal merge
nodes, the whole batch of new nodes is persisted at the next sequential
positions, and only then is the size advanced.  Returns the new state and
the leaf's assigned position. -/
def EvidenceStore.pushLeaf (s : EvidenceStore) (leafHash : Hash) :
    EvidenceStore × Nat :=
  let pos := s.mmr_size
  let res := carry (PTree.leaf leafHash :: s.rpeaks) [leafHash]
  (⟨s.store ++ res.2, s.mmr_size + res.2.length, res.1⟩, pos)

/-- Root computation (spec section 4.3, `currentRoot`): fails with
`EmptyLedger` on an empty ledger; otherwise bags the peaks going from the
rightmost (newest) to the leftmost (tallest), each step merging the next
peak to the left with the accumulator. -/
def EvidenceStore.currentRoot (s : EvidenceStore) : Except CoreError Hash :=
  match s.rpeaks.map PTree.root with
  | [] => .error .EmptyLedger
  | r :: rs => .ok (rs.foldl (fun acc p => merge p acc) r)

/-- Side on which a proof sibling sits relative to the running hash. -/
inductive Side : Type where
  | left : Side
  | right : Side
deriving DecidableEq, Repr

/-- Inclusion proof (spec section 3): the bottom-up sibling digests (with
their recorded sides) needed to recompute the peak containing the target,
plus the digests of all other current peaks, split into those left and
right of the target's peak, each in canonical left-to-right order. -/
structure MerkleProof : Type where
  path : List (Side × Hash)
  lhsPeaks : List Hash
  rhsPeaks : List Hash
deriving DecidableEq, Repr

/-- Flat view of a proof: the ordered list of sibling/peak digests it
carries (spec section 6, output of a proof request). -/
def MerkleProof.items (p : MerkleProof) : List Hash :=
  p.path.map Prod.snd ++ p.lhsPeaks ++ p.rhsPeaks

/-- Proof path inside one peak subtree for the node at offset `pos` of the
subtree's position range: defined exactly when that node is a leaf, and
then lists the sibling hash and side at each level bottom-up. -/
def PTree.proofPath : PTree → Nat → Option (List (Side × Hash))
  | .leaf _, pos => if pos = 0 then some [] else none
  | .node _ l r, pos =>
      if pos < l.size then
        (l.proofPath pos).map (fun p => p ++ [(Side.right, r.root)])
      else if pos - l.size < r.size then
        (r.proofPath (pos - l.size)).map (fun p => p ++ [(Side.left, l.root)])
      else none

/-- Proof generation over the tallest-first peak list (spec section 4.3,
`genProof`): locate the peak subtree containing the requested position,
take the sibling path inside it, and record the remaining peak hashes on
either side in canonical order. -/
def genProofAux : List PTree → Nat → Option MerkleProof
  | [], _ => none
  | t :: ts, pos =>
      if pos < t.size then
        (t.proofPath pos).map (fun path => ⟨path, [], ts.map PTree.root⟩)
      else
        (genProofAux ts (pos - t.size)).map
          (fun pr => ⟨pr.path, t.root :: pr.lhsPeaks, pr.rhsPeaks⟩)

/-- Proof request for one position (`EvidenceStore::get_proof` with a
singleton position list): fails with `InvalidProofRequest` when the
position is out of range or holds an internal node. -/
def EvidenceStore.getProof (s : EvidenceStore) (pos : Nat) :
    Except CoreError MerkleProof :=
  match genProofAux s.rpeaks.reverse pos with
  | none => .error .InvalidProofRequest
  | some p => .ok p

/-- One verification step: combine the running hash with a sibling on the
recorded side. -/
def sideStep (h : Hash) (sb : Side × Hash) : Hash :=
  match sb.1 with
  | .left => merge sb.2 h
  | .right => merge h sb.2

/-- Recompute the peak hash from a leaf hash and the proof path. -/
def climb (path : List (Side × Hash)) (h0 : Hash) : Hash :=
  path.foldl sideStep h0

/-- Peak bagging written exactly as the spec states it (spec section 4.3,
`currentRoot`): on the tallest-first peak list, a single peak is the root
and otherwise `root = merge(peak_1, merge(peak_2, merge(peak_3, ...)))`. -/
def bagTF : List Hash → Option Hash
  | [] => none
  | p :: ps =>
      match bagTF ps with
      | none => some p
      | some acc => some (merge p acc)

/-- Proof verification (spec section 4.3, `verifyProof`): recompute the
target's peak bottom-up from the leaf hash using the recorded sibling
sides, bag it with the other supplied peaks in canonical order by the same
fold as `currentRoot`, and compare with the expected root.  Pure function
of its inputs; the target position is part of the request but the sides
are taken from the proof as recorded. -/
def verifyProof (pr : MerkleProof) (leafHash : Hash) (_pos : Nat)
    (expectedRoot : Hash) : Bool :=
  match bagTF (pr.lhsPeaks ++ climb pr.path leafHash :: pr.rhsPeaks) with
  | none => false
  | some r => decide (r = expectedRoot)

/-- Ledger reached by appending the given leaf digests in order to a fresh
store. -/
def build (leaves : List Hash) : EvidenceStore :=
  leaves.foldl (fun s x => (s.pushLeaf x).1) EvidenceStore.new

/-- Leaf test for a global position: `true` exactly when the position is
below the node count and holds a leaf. -/
def EvidenceStore.isLeafPos (s : EvidenceStore) (pos : Nat) : Bool :=
  ((s.rpeaks.reverse.map PTree.postT).flatten).getD pos false

/-- Decidable equality of `Except` results, used to evaluate concrete
scenarios. -/
instance exceptDecEq {ε α : Type} [DecidableEq ε] [DecidableEq α] :
    DecidableEq (Except ε α) := fun a b =>
  match a, b with
  | .error e, .error f =>
      if h : e = f then isTrue (by rw [h]) else isFalse (by simp [h])
  | .error _, .ok _ => isFalse (by simp)
  | .ok _, .error _ => isFalse (by simp)
  | .ok x, .ok y =>
      if h : x = y then isTrue (by rw [h]) else isFalse (by simp [h])

/-- Positions of the current peak roots, tallest first. -/
def peakPositionsAux : Nat → List PTree → List Nat
  | _, [] => []
  | off, t :: ts => (off + t.size - 1) :: peakPositionsAux (off + t.size) ts

/-- Positions of the current peak roots, tallest (leftmost) first. -/
def EvidenceStore.peakPositions (s : EvidenceStore) : List Nat :=
  peakPositionsAux 0 s.rpeaks.reverse

/-- Evidence record (`src/evidence.rs`, with `confidence` kept in the
textual form the persistent store's callers use, cf. spec section 3:
"confidence (numeric, serialized as text)").  Byte strings are lists of
byte values, `activated_prompts` is the ordered list of u32 component
indices, `timestamp` is the i64 Unix timestamp. -/
structure Evidence : Type where
  image_phash : List Nat
  image_sha256 : List Nat
  verdict : Bool
  confidence : List Nat
  activated_prompts : List Nat
  prompt_pool_hash : List Nat
  external_knowledge_hash : List Nat
  timestamp : Int
deriving DecidableEq, Repr

/-- Lowercase-hex digit test on a byte value. -/
def isHexDigit (b : Nat) : Bool := (48 ≤ b && b ≤ 57) || (97 ≤ b && b ≤ 102)

/-- Valid variable-length byte field: byte values below 256 and a length
that fits the u32 length prefix. -/
def validBytes (xs : List Nat) : Bool :=
  xs.all (· < 256) && decide (xs.length < 2 ^ 32)

/-- Well-formedness of an evidence record.  Modelled from the spec:
the canonical encoder "must reject records with out-of-range or malformed
fields" (spec section 4.1); the content identity hash is a fixed-length
(64 character) hex digest (spec section 3), activated components are
non-negative u32 indices, and the timestamp is an i64. -/
def Evidence.wellFormed (r : Evidence) : Bool :=
  validBytes r.image_phash &&
  (decide (r.image_sha256.length = 64) && r.image_sha256.all isHexDigit) &&
  validBytes r.confidence &&
  (decide (r.activated_prompts.length < 2 ^ 32) &&
    r.activated_prompts.all (· < 2 ^ 32)) &&
  validBytes r.prompt_pool_hash &&
  validBytes r.external_knowledge_hash &&
  (decide (-(2 ^ 63 : Int) ≤ r.timestamp) && decide (r.timestamp < 2 ^ 63))

/-- Big-endian fixed-width u32 byte encoding. -/
def u32be (n : Nat) : List Nat :=
  [n / 2 ^ 24 % 256, n / 2 ^ 16 % 256, n / 2 ^ 8 % 256, n % 256]

/-- Big-endian fixed-width u64 byte encoding. -/
def u64be (n : Nat) : List Nat :=
  [n / 2 ^ 56 % 256, n / 2 ^ 48 % 256, n / 2 ^ 40 % 256, n / 2 ^ 32 % 256,
   n / 2 ^ 24 % 256, n / 2 ^ 16 % 256, n / 2 ^ 8 % 256, n % 256]

/-- Length-prefixed variable-length field: u32 length then the bytes. -/
def lenPrefixed (xs : List Nat) : List Nat := u32be xs.length ++ xs

/-- Count-prefixed sequence of fixed-width u32 values. -/
def u32seq (vs : List Nat) : List Nat :=
  u32be vs.length ++ (vs.map u32be).flatten

/-- Fixed-width i64 encoding (two's complement, big-endian). -/
def i64be (t : Int) : List Nat := u64be ((t.emod (2 ^ 64)).toNat)

/-- Canonical byte serialization of a record.  Modelled from the spec
(section 3, "Canonical bytes"): a leading version tag byte, fixed field
order, fixed-width integer encodings and length-prefixed variable-length
fields. -/
def encodeBytes (r : Evidence) : List Nat :=
  1 :: (lenPrefixed r.image_phash ++ (lenPrefixed r.image_sha256 ++
    ((if r.verdict then 1 else 0) :: (lenPrefixed r.confidence ++
      (u32seq r.activated_prompts ++ (lenPrefixed r.prompt_pool_hash ++
        (lenPrefixed r.external_knowledge_hash ++ i64be r.timestamp)))))))

/-- Canonical encoder (spec section 4.1): pure and deterministic, rejecting
malformed records with `EncodingError` and producing the canonical bytes
otherwise. -/
def encode (r : Evidence) : Except CoreError (List Nat) :=
  if r.wellFormed then .ok (encodeBytes r) else .error .EncodingError

/-- Evidence append (`EvidenceStore::append`): serialize the record, hash
the payload into the 32-byte leaf digest, push the leaf into the MMR,
advance the size, and return the new root together with the leaf position.
A failed encode returns before anything is hashed or stored. -/
def EvidenceStore.append (s : EvidenceStore) (ev : Evidence) :
    EvidenceStore × Except CoreError (Hash × Nat) :=
  match encode ev with
  | .error e => (s, .error e)
  | .ok payload =>
      let leafHash := Hash.ofBytes payload
      let res := s.pushLeaf leafHash
      match res.1.currentRoot with
      | .error e => (res.1, .error e)
      | .ok root => (res.1, .ok (root, res.2))

/-- Store positions accumulated by a peak list, newest-first view: the
concatenation of the postorder blocks of the peaks, oldest (tallest)
first. -/
def storeOf (ps : List PTree) : List Hash :=
  (ps.reverse.map PTree.post).flatten

/-- Loose precondition of the carry loop: the newest peak's height is at
most the next one's; strictly increasing after that. -/
def looseChain : List PTree → Prop
  | [] => True
  | [_] => True
  | t1 :: t2 :: rest =>
      t1.height ≤ t2.height ∧
        List.Chain' (fun a b => a.height < b.height) (t2 :: rest)

/-- Reachability invariant of the ledger state: peaks are well-formed
perfect trees of strictly increasing height (newest first), the store is
exactly the concatenation of their node blocks in position order, and the
persisted size counts exactly the stored nodes. -/
structure LedgerInv (s : EvidenceStore) : Prop where
  wf : ∀ t ∈ s.rpeaks, PTree.wfB t = true
  chain : List.Chain' (fun a b => PTree.height a < PTree.height b) s.rpeaks
  store_eq : s.store = storeOf s.rpeaks
  size_eq : s.mmr_size = s.store.length

/-- Search loop for the tallest peak height: raise `h` while the next
taller perfect subtree still fits entirely below `size`. -/
def maxPHgo (size : Nat) : Nat → Nat → Nat
  | 0, h => h
  | fuel + 1, h =>
      if 2 ^ (h + 2) - 1 ≤ size then maxPHgo size fuel (h + 1) else h

/-- Height of the tallest (leftmost) peak of an MMR holding `size` nodes
(meaningful for `1 ≤ size`).  Modelled from the spec: the peak set is
fully determined by the node count (spec section 3, "Tree size"). -/
def maxPH (size : Nat) : Nat := maxPHgo size size 0

/-- Rebuild a perfect peak subtree of height `h` from its contiguous block
of stored node hashes. -/
def rebuildTree : Nat → List Hash → PTree
  | 0, seg => .leaf (seg.headD hashDefault)
  | h + 1, seg =>
      let m := 2 ^ (h + 1) - 1
      .node (seg.getLastD hashDefault) (rebuildTree h (seg.take m))
        (rebuildTree h ((seg.drop m).take m))

/-- Rebuild the tallest-first peak forest from the persisted size and
store (spec section 4.4, recovery rule: on restart the engine trusts only
the persisted size).  The fuel is bounded by `size`; every peak consumes
at least one node, so it is always sufficient. -/
def rebuildForestGo : Nat → Nat → List Hash → List PTree
  | 0, _, _ => []
  | fuel + 1, size, store =>
      if size = 0 then []
      else
        let h := maxPH size
        let m := 2 ^ (h + 1) - 1
        rebuildTree h (store.take m) ::
          rebuildForestGo fuel (size - m) (store.drop m)

/-- Tallest-first peak forest re-derived from persisted state. -/
def rebuildForest (size : Nat) (store : List Hash) : List PTree :=
  rebuildForestGo size size store

/-- Reopen a ledger from its persisted state: the durable
position-to-hash map plus the durable size, with the peak forest
re-derived from them. -/
def reopen (size : Nat) (store : List Hash) : EvidenceStore :=
  ⟨store, size, (rebuildForest size store).reverse⟩

/-- Well-formed record used as a concrete input by witnesses. -/
def evGood : Evidence where
  image_phash := [112, 104]
  image_sha256 := List.replicate 64 97
  verdict := true
  confidence := [48, 46, 57, 57]
  activated_prompts := [1, 2, 99]
  prompt_pool_hash := [109]
  external_knowledge_hash := [120]
  timestamp := 1234567890

/-- Malformed record (its content identity hash is not a 64-character hex
digest) used as a concrete input by witnesses. -/
def evBad : Evidence where
  image_phash := [112, 104]
  image_sha256 := [122]
  verdict := true
  confidence := [48, 46, 57, 57]
  activated_prompts := [1, 2, 99]
  prompt_pool_hash := [109]
  external_knowledge_hash := [120]
  timestamp := 1234567890

theorem PTree.post_length (t : PTree) : t.post.length = t.size := by
  induction t with
  | leaf h => rfl
  | node h l r ihl ihr =>
      simp only [PTree.post, PTree.size, List.length_append,
        List.length_singleton, ihl, ihr]

theorem PTree.postT_length (t : PTree) : t.postT.length = t.size := by
  induction t with
  | leaf h => rfl
  | node h l r ihl ihr =>
      simp only [PTree.postT, PTree.size, List.length_append,
        List.length_singleton, ihl, ihr]

theorem PTree.size_pos (t : PTree) : 1 ≤ t.size := by
  cases t <;> simp [PTree.size]

theorem PTree.wfB_node {h : Hash} {l r : PTree}
    (hwf : (PTree.node h l r).wfB = true) :
    h = merge l.root r.root ∧ l.height = r.height ∧ l.wfB = true ∧
      r.wfB = true := by
  simp only [PTree.wfB, Bool.and_eq_true, decide_eq_true_eq] at hwf
  exact ⟨hwf.1.1.1, hwf.1.1.2, hwf.1.2, hwf.2⟩

theorem PTree.size_of_wfB (t : PTree) (hwf : t.wfB = true) :
    t.size = 2 ^ (t.height + 1) - 1 := by
  induction t with
  | leaf h => rfl
  | node h l r ihl ihr =>
      obtain ⟨-, hh, hl, hr⟩ := PTree.wfB_node hwf
      have el := ihl hl
      have er := ihr hr
      have hp : 1 ≤ 2 ^ (l.height + 1) := Nat.one_le_two_pow
      simp only [PTree.size, PTree.height, el, er, ← hh]
      have : 2 ^ (l.height + 1 + 1) = 2 ^ (l.height + 1) * 2 := by
        rw [pow_succ]
      omega

theorem storeOf_cons (t : PTree) (ts : List PTree) :
    storeOf (t :: ts) = storeOf ts ++ t.post := by
  simp [storeOf]

theorem carryGo_spec :
    ∀ (fuel : Nat) (ps : List PTree) (acc base : List Hash),
    ps.length ≤ fuel + 1 → ps ≠ [] →
    (∀ t ∈ ps, t.wfB = true) → looseChain ps →
    storeOf ps = base ++ acc →
    (∀ t ∈ (carryGo fuel ps acc).1, t.wfB = true) ∧
    List.Chain' (fun a b => a.height < b.height) (carryGo fuel ps acc).1 ∧
    storeOf (carryGo fuel ps acc).1 = base ++ (carryGo fuel ps acc).2 ∧
    acc.length ≤ (carryGo fuel ps acc).2.length ∧
    (carryGo fuel ps acc).1 ≠ []
  | 0, ps, acc, base, hlen, hne, hwf, hloose, hstore => by
      have hch : List.Chain' (fun a b => PTree.height a < PTree.height b) ps := by
        match ps with
        | [] => exact List.chain'_nil
        | [t] => exact List.chain'_singleton t
        | t1 :: t2 :: rest => simp at hlen
      exact ⟨hwf, hch, hstore, Nat.le_refl _, hne⟩
  | fuel + 1, [t], acc, base, hlen, hne, hwf, hloose, hstore => by
      have hstep : carryGo (fuel + 1) [t] acc = ([t], acc) := by
        simp [carryGo]
      rw [hstep]
      exact ⟨hwf, List.chain'_singleton t, hstore, Nat.le_refl _, hne⟩
  | fuel + 1, t1 :: t2 :: rest, acc, base, hlen, hne, hwf, hloose, hstore => by
      by_cases heq : t1.height = t2.height
      · have hstep :
            carryGo (fuel + 1) (t1 :: t2 :: rest) acc =
              carryGo fuel
                (PTree.node (merge t2.root t1.root) t2 t1 :: rest)
                (acc ++ [merge t2.root t1.root]) := by
          simp [carryGo, heq]
        have hwf2 :
            ∀ t ∈ PTree.node (merge t2.root t1.root) t2 t1 :: rest,
              t.wfB = true := by
          intro t ht
          rcases List.mem_cons.mp ht with h | h
          · subst h
            have hw2 := hwf t2 (by simp)
            have hw1 := hwf t1 (by simp)
            simp [PTree.wfB, heq.symm, hw2, hw1]
          · exact hwf t (by simp [h])
        have hloose2 :
            looseChain (PTree.node (merge t2.root t1.root) t2 t1 :: rest) := by
          match rest, hloose with
          | [], _ => trivial
          | r1 :: rest', ⟨hle, hch⟩ =>
              rcases List.chain'_cons.mp hch with ⟨hlt, hch'⟩
              exact ⟨by simpa [PTree.height] using hlt, hch'⟩
        have hstore2 :
            storeOf (PTree.node (merge t2.root t1.root) t2 t1 :: rest) =
              base ++ (acc ++ [merge t2.root t1.root]) := by
          have h1 := storeOf_cons t1 (t2 :: rest)
          have h2 := storeOf_cons t2 rest
          have h3 := storeOf_cons
            (PTree.node (merge t2.root t1.root) t2 t1) rest
          rw [h1, h2] at hstore
          rw [h3]
          simp only [PTree.post]
          rw [show storeOf rest ++ (t2.post ++ t1.post ++
              [merge t2.root t1.root]) =
            (storeOf rest ++ t2.post ++ t1.post) ++
              [merge t2.root t1.root] by simp [List.append_assoc]]
          rw [hstore]
          simp [List.append_assoc]
        have ih := carryGo_spec fuel
          (PTree.node (merge t2.root t1.root) t2 t1 :: rest)
          (acc ++ [merge t2.root t1.root]) base
          (by simpa using Nat.le_of_succ_le_succ hlen)
          (by simp) hwf2 hloose2 hstore2
        rw [hstep]
        refine ⟨ih.1, ih.2.1, ih.2.2.1, ?_, ih.2.2.2.2⟩
        have := ih.2.2.2.1
        simp only [List.length_append, List.length_singleton] at this
        omega
      · have hstep :
            carryGo (fuel + 1) (t1 :: t2 :: rest) acc =
              (t1 :: t2 :: rest, acc) := by
          simp [carryGo, heq]
        rw [hstep]
        obtain ⟨hle, hch⟩ := hloose
        refine ⟨hwf, ?_, hstore, Nat.le_refl _, by simp⟩
        exact List.chain'_cons.mpr
          ⟨Nat.lt_of_le_of_ne hle heq, hch⟩

theorem new_inv : LedgerInv EvidenceStore.new :=
  ⟨by simp [EvidenceStore.new], by simp [EvidenceStore.new],
    by simp [EvidenceStore.new, storeOf], by simp [EvidenceStore.new]⟩

theorem pushLeaf_inv (s : EvidenceStore) (hInv : LedgerInv s) (x : Hash) :
    LedgerInv (s.pushLeaf x).1 ∧
      s.mmr_size + 1 ≤ (s.pushLeaf x).1.mmr_size ∧
      (s.pushLeaf x).1.rpeaks ≠ [] := by
  have hwf : ∀ t ∈ PTree.leaf x :: s.rpeaks, t.wfB = true := by
    intro t ht
    rcases List.mem_cons.mp ht with h | h
    · subst h; rfl
    · exact hInv.wf t h
  have hloose : looseChain (PTree.leaf x :: s.rpeaks) := by
    match s.rpeaks, hInv.chain with
    | [], _ => trivial
    | t2 :: rest, hch => exact ⟨Nat.zero_le _, hch⟩
  have hstore :
      storeOf (PTree.leaf x :: s.rpeaks) = s.store ++ [x] := by
    rw [storeOf_cons, ← hInv.store_eq]; rfl
  have hspec := carryGo_spec (PTree.leaf x :: s.rpeaks).length
    (PTree.leaf x :: s.rpeaks) [x] s.store
    (by simp) (by simp) hwf hloose hstore
  set C := carryGo (PTree.leaf x :: s.rpeaks).length
    (PTree.leaf x :: s.rpeaks) [x] with hC
  have hfst : (s.pushLeaf x).1 =
      ⟨s.store ++ C.2, s.mmr_size + C.2.length, C.1⟩ := rfl
  rw [hfst]
  have hacc : 1 ≤ C.2.length := by
    have := hspec.2.2.2.1
    simpa using this
  refine ⟨⟨hspec.1, hspec.2.1, hspec.2.2.1.symm, ?_⟩, ?_, hspec.2.2.2.2⟩
  · simp only [List.length_append, hInv.size_eq]
  · show s.mmr_size + 1 ≤ s.mmr_size + C.2.length
    omega

theorem foldl_inv (ls : List Hash) (s : EvidenceStore) (hInv : LedgerInv s) :
    LedgerInv (ls.foldl (fun s x => (s.pushLeaf x).1) s) ∧
      s.mmr_size + ls.length ≤
        (ls.foldl (fun s x => (s.pushLeaf x).1) s).mmr_size := by
  induction ls generalizing s with
  | nil => exact ⟨hInv, by simp⟩
  | cons x ls ih =>
      obtain ⟨hInv', hsz, -⟩ := pushLeaf_inv s hInv x
      obtain ⟨hInv'', hsz'⟩ := ih (s.pushLeaf x).1 hInv'
      refine ⟨hInv'', ?_⟩
      simp only [List.foldl_cons, List.length_cons]
      exact Nat.le_trans (by omega) hsz'

theorem build_inv (leaves : List Hash) :
    LedgerInv (build leaves) ∧ leaves.length ≤ (build leaves).mmr_size := by
  obtain ⟨h1, h2⟩ := foldl_inv leaves EvidenceStore.new new_inv
  exact ⟨h1, by simpa [EvidenceStore.new] using h2⟩

theorem storeOf_length (ps : List PTree) :
    (storeOf ps).length = ((ps.map PTree.size).sum) := by
  induction ps with
  | nil => rfl
  | cons t ts ih =>
      rw [storeOf_cons]
      simp only [List.length_append, ih, List.map_cons, List.sum_cons,
        PTree.post_length]
      omega

theorem rpeaks_nil_of_size_zero (s : EvidenceStore) (hInv : LedgerInv s)
    (h : s.mmr_size = 0) : s.rpeaks = [] := by
  match hps : s.rpeaks with
  | [] => rfl
  | t :: ts =>
      exfalso
      have hlen : s.store.length = 0 := by
        have := hInv.size_eq
        omega
      rw [hInv.store_eq, hps, storeOf_length] at hlen
      have := t.size_pos
      simp at hlen
      omega

theorem climb_append (p : List (Side × Hash)) (sb : Side × Hash)
    (h0 : Hash) : climb (p ++ [sb]) h0 = sideStep (climb p h0) sb := by
  simp [climb, List.foldl_append]

theorem proofPath_climb (t : PTree) (hwf : t.wfB = true) :
    ∀ (pos : Nat) (path : List (Side × Hash)) (d : Hash),
      t.proofPath pos = some path →
      climb path (t.post.getD pos d) = t.root := by
  induction t with
  | leaf h =>
      intro pos path d hp
      by_cases h0 : pos = 0
      · subst h0
        simp [PTree.proofPath] at hp
        subst hp
        rfl
      · simp [PTree.proofPath, h0] at hp
  | node h l r ihl ihr =>
      intro pos path d hp
      obtain ⟨hm, hh, hl, hr⟩ := PTree.wfB_node hwf
      by_cases h1 : pos < l.size
      · simp only [PTree.proofPath, if_pos h1, Option.map_eq_some'] at hp
        obtain ⟨p0, hp0, hpe⟩ := hp
        subst hpe
        have hget : (PTree.node h l r).post.getD pos d = l.post.getD pos d := by
          simp only [PTree.post]
          rw [List.append_assoc, List.getD_append]
          rw [l.post_length]
          exact h1
        rw [hget, climb_append, ihl hl pos p0 d hp0]
        show merge l.root r.root = (PTree.node h l r).root
        rw [← hm]
        rfl
      · by_cases h2 : pos - l.size < r.size
        · simp only [PTree.proofPath, if_neg h1, if_pos h2,
            Option.map_eq_some'] at hp
          obtain ⟨p0, hp0, hpe⟩ := hp
          subst hpe
          have hget : (PTree.node h l r).post.getD pos d =
              r.post.getD (pos - l.size) d := by
            have hle : l.post.length ≤ pos := by rw [l.post_length]; omega
            have hlt : pos - l.post.length < r.post.length := by
              rw [r.post_length, l.post_length]; omega
            simp only [PTree.post]
            rw [List.append_assoc, List.getD_append_right _ _ _ _ hle,
              List.getD_append _ _ _ _ hlt, l.post_length]
          rw [hget, climb_append, ihr hr (pos - l.size) p0 d hp0]
          show merge l.root r.root = (PTree.node h l r).root
          rw [← hm]
          rfl
        · simp [PTree.proofPath, h1, h2] at hp

theorem genProofAux_spec :
    ∀ (ts : List PTree) (pos : Nat) (pr : MerkleProof) (d : Hash),
      (∀ t ∈ ts, t.wfB = true) →
      genProofAux ts pos = some pr →
      pr.lhsPeaks ++
          climb pr.path (((ts.map PTree.post).flatten).getD pos d) ::
          pr.rhsPeaks
        = ts.map PTree.root
  | [], pos, pr, d, hwf, hp => by simp [genProofAux] at hp
  | t :: ts, pos, pr, d, hwf, hp => by
      by_cases h1 : pos < t.size
      · simp only [genProofAux, if_pos h1, Option.map_eq_some'] at hp
        obtain ⟨path, hpath, hpr⟩ := hp
        subst hpr
        have hget : (((t :: ts).map PTree.post).flatten).getD pos d =
            t.post.getD pos d := by
          simp only [List.map_cons, List.flatten_cons]
          rw [List.getD_append]
          rw [t.post_length]
          exact h1
        rw [hget]
        simp only [List.nil_append, List.map_cons]
        rw [proofPath_climb t (hwf t (by simp)) pos path d hpath]
      · simp only [genProofAux, if_neg h1, Option.map_eq_some'] at hp
        obtain ⟨pr0, hpr0, hpr⟩ := hp
        subst hpr
        have hget : (((t :: ts).map PTree.post).flatten).getD pos d =
            ((ts.map PTree.post).flatten).getD (pos - t.size) d := by
          have hle : t.post.length ≤ pos := by rw [t.post_length]; omega
          simp only [List.map_cons, List.flatten_cons]
          rw [List.getD_append_right _ _ _ _ hle, t.post_length]
        rw [hget]
        have ih := genProofAux_spec ts (pos - t.size) pr0 d
          (fun u hu => hwf u (by simp [hu])) hpr0
        simp only [List.map_cons, List.cons_append]
        rw [ih]

theorem bagTF_concat (ps : List Hash) (x : Hash) :
    bagTF (ps ++ [x]) = some (ps.foldr merge x) := by
  induction ps with
  | nil => rfl
  | cons p ps ih => simp [List.cons_append, bagTF, ih]

theorem currentRoot_eq (s : EvidenceStore) (hne : s.rpeaks ≠ []) :
    ∃ r, s.currentRoot = .ok r ∧
      bagTF (s.rpeaks.reverse.map PTree.root) = some r := by
  match hps : s.rpeaks, hne with
  | t :: ts, _ =>
      refine ⟨(ts.map PTree.root).foldl (fun acc p => merge p acc) t.root,
        ?_, ?_⟩
      · simp [EvidenceStore.currentRoot, hps]
      · rw [List.reverse_cons, List.map_append]
        simp only [List.map_cons, List.map_nil]
        rw [bagTF_concat, List.map_reverse, List.foldr_reverse]

theorem verify_of_parts (pr : MerkleProof) (lf : Hash) (pos : Nat)
    (r : Hash)
    (h : bagTF (pr.lhsPeaks ++ climb pr.path lf :: pr.rhsPeaks) = some r) :
    verifyProof pr lf pos r = true := by
  simp [verifyProof, h]

theorem getD_false_singleton (k : Nat) : [false].getD k false = false := by
  cases k <;> rfl

theorem proofPath_isSome (t : PTree) (hwf : t.wfB = true) :
    ∀ pos : Nat,
      (pos < t.size →
        ((t.proofPath pos).isSome = t.postT.getD pos false)) ∧
      (t.size ≤ pos → t.proofPath pos = none) := by
  induction t with
  | leaf h =>
      intro pos
      constructor
      · intro hlt
        have h0 : pos = 0 := by simp [PTree.size] at hlt; omega
        subst h0
        simp [PTree.proofPath, PTree.postT]
      · intro hge
        have h0 : pos ≠ 0 := by simp [PTree.size] at hge; omega
        simp [PTree.proofPath, h0]
  | node h l r ihl ihr =>
      intro pos
      obtain ⟨hm, hh, hl, hr⟩ := PTree.wfB_node hwf
      have Il := ihl hl
      have Ir := ihr hr
      have hsz : (PTree.node h l r).size = l.size + r.size + 1 := rfl
      constructor
      · intro hlt
        by_cases h1 : pos < l.size
        · have e1 : (PTree.node h l r).proofPath pos =
              (l.proofPath pos).map
                (fun p => p ++ [(Side.right, r.root)]) := by
            simp [PTree.proofPath, h1]
          have hlt' : pos < l.postT.length := by
            rw [l.postT_length]; exact h1
          have e2 : (PTree.node h l r).postT.getD pos false =
              l.postT.getD pos false := by
            simp only [PTree.postT]
            rw [List.append_assoc, List.getD_append _ _ _ _ hlt']
          rw [e1, e2, ← (Il pos).1 h1]
          cases l.proofPath pos <;> rfl
        · by_cases h2 : pos - l.size < r.size
          · have e1 : (PTree.node h l r).proofPath pos =
                (r.proofPath (pos - l.size)).map
                  (fun p => p ++ [(Side.left, l.root)]) := by
              simp [PTree.proofPath, h1, h2]
            have hge' : l.postT.length ≤ pos := by
              rw [l.postT_length]; omega
            have hlt2 : pos - l.postT.length < r.postT.length := by
              rw [r.postT_length, l.postT_length]; omega
            have e2 : (PTree.node h l r).postT.getD pos false =
                r.postT.getD (pos - l.size) false := by
              simp only [PTree.postT]
              rw [List.append_assoc, List.getD_append_right _ _ _ _ hge',
                List.getD_append _ _ _ _ hlt2, l.postT_length]
            rw [e1, e2, ← (Ir (pos - l.size)).1 h2]
            cases r.proofPath (pos - l.size) <;> rfl
          · have e1 : (PTree.node h l r).proofPath pos = none := by
              simp [PTree.proofPath, h1, h2]
            have hge2 : l.postT.length + r.postT.length ≤ pos := by
              rw [l.postT_length, r.postT_length]; omega
            have e2 : (PTree.node h l r).postT.getD pos false = false := by
              simp only [PTree.postT]
              rw [List.getD_append_right _ _ _ _
                (by simp only [List.length_append]; omega)]
              exact getD_false_singleton _
            rw [e1, e2]
            rfl
      · intro hge
        have h1 : ¬pos < l.size := by omega
        have h2 : ¬pos - l.size < r.size := by omega
        simp [PTree.proofPath, h1, h2]

theorem genProofAux_isSome (ts : List PTree)
    (hwf : ∀ t ∈ ts, t.wfB = true) :
    ∀ pos, (genProofAux ts pos).isSome =
      (decide (pos < (ts.map PTree.size).sum) &&
        ((ts.map PTree.postT).flatten).getD pos false) := by
  induction ts with
  | nil => intro pos; simp [genProofAux]
  | cons t ts ih =>
      intro pos
      have hwt := hwf t (by simp)
      by_cases h1 : pos < t.size
      · have e1 : genProofAux (t :: ts) pos =
            (t.proofPath pos).map
              (fun path => ⟨path, [], ts.map PTree.root⟩) := by
          simp [genProofAux, h1]
        have hlt' : pos < t.postT.length := by
          rw [t.postT_length]; exact h1
        have e2 : (((t :: ts).map PTree.postT).flatten).getD pos false =
            t.postT.getD pos false := by
          simp only [List.map_cons, List.flatten_cons]
          rw [List.getD_append _ _ _ _ hlt']
        have e3 : decide (pos < ((t :: ts).map PTree.size).sum) = true := by
          simp only [List.map_cons, List.sum_cons, decide_eq_true_eq]
          omega
        rw [e1, e2, e3, Bool.true_and, ← (proofPath_isSome t hwt pos).1 h1]
        cases t.proofPath pos <;> rfl
      · have e1 : genProofAux (t :: ts) pos =
            (genProofAux ts (pos - t.size)).map
              (fun pr => ⟨pr.path, t.root :: pr.lhsPeaks, pr.rhsPeaks⟩) := by
          simp [genProofAux, h1]
        have hge' : t.postT.length ≤ pos := by
          rw [t.postT_length]; omega
        have e2 : (((t :: ts).map PTree.postT).flatten).getD pos false =
            ((ts.map PTree.postT).flatten).getD (pos - t.size) false := by
          simp only [List.map_cons, List.flatten_cons]
          rw [List.getD_append_right _ _ _ _ hge', t.postT_length]
        have e3 : decide (pos < ((t :: ts).map PTree.size).sum) =
            decide (pos - t.size < (ts.map PTree.size).sum) := by
          simp only [List.map_cons, List.sum_cons]
          exact decide_eq_decide.mpr (by omega)
        have e4 : ((genProofAux ts (pos - t.size)).map
            (fun pr : MerkleProof =>
              (⟨pr.path, t.root :: pr.lhsPeaks, pr.rhsPeaks⟩ :
                MerkleProof))).isSome =
            (genProofAux ts (pos - t.size)).isSome := by
          cases genProofAux ts (pos - t.size) <;> rfl
        rw [e1, e2, e3, e4, ih (fun u hu => hwf u (by simp [hu]))]

theorem size_sum_eq (s : EvidenceStore) (hInv : LedgerInv s) :
    (s.rpeaks.reverse.map PTree.size).sum = s.mmr_size := by
  rw [List.map_reverse, List.sum_reverse, ← storeOf_length,
    ← hInv.store_eq, hInv.size_eq]

theorem getProof_cases (s : EvidenceStore) (hInv : LedgerInv s)
    (pos : Nat) :
    (pos < s.mmr_size ∧ s.isLeafPos pos = true →
      ∃ pr, s.getProof pos = .ok pr) ∧
    (s.mmr_size ≤ pos ∨ s.isLeafPos pos = false →
      s.getProof pos = .error .InvalidProofRequest) := by
  have hwf : ∀ t ∈ s.rpeaks.reverse, t.wfB = true := by
    intro t ht
    exact hInv.wf t (List.mem_reverse.mp ht)
  have hiso := genProofAux_isSome s.rpeaks.reverse hwf pos
  rw [size_sum_eq s hInv] at hiso
  constructor
  · rintro ⟨hlt, hleaf⟩
    rw [EvidenceStore.isLeafPos] at hleaf
    have : (genProofAux s.rpeaks.reverse pos).isSome = true := by
      rw [hiso, hleaf, decide_eq_true hlt]
      rfl
    obtain ⟨pr, hpr⟩ := Option.isSome_iff_exists.mp this
    exact ⟨pr, by simp [EvidenceStore.getProof, hpr]⟩
  · intro hbad
    have : (genProofAux s.rpeaks.reverse pos).isSome = false := by
      rw [hiso]
      rcases hbad with hge | hleaf
      · rw [decide_eq_false (by omega)]
        rfl
      · rw [EvidenceStore.isLeafPos] at hleaf
        rw [hleaf, Bool.and_false]
    have hnone : genProofAux s.rpeaks.reverse pos = none := by
      cases hgp : genProofAux s.rpeaks.reverse pos
      · rfl
      · rw [hgp] at this; simp at this
    simp [EvidenceStore.getProof, hnone]

theorem carryGo_ne_nil :
    ∀ (fuel : Nat) (ps : List PTree) (acc : List Hash),
      ps ≠ [] → (carryGo fuel ps acc).1 ≠ []
  | 0, ps, acc, h => h
  | fuel + 1, [], acc, h => absurd rfl h
  | fuel + 1, [t], acc, h => by simp [carryGo]
  | fuel + 1, t1 :: t2 :: rest, acc, h => by
      by_cases heq : t1.height = t2.height
      · have hstep :
            carryGo (fuel + 1) (t1 :: t2 :: rest) acc =
              carryGo fuel
                (PTree.node (merge t2.root t1.root) t2 t1 :: rest)
                (acc ++ [merge t2.root t1.root]) := by
          simp [carryGo, heq]
        rw [hstep]
        exact carryGo_ne_nil fuel _ _ (by simp)
      · simp [carryGo, heq]

theorem size_zero_of_rpeaks_nil (s : EvidenceStore) (hInv : LedgerInv s)
    (h : s.rpeaks = []) : s.mmr_size = 0 := by
  have hst := hInv.store_eq
  rw [h] at hst
  rw [hInv.size_eq, hst]
  rfl

theorem verify_roundtrip (s : EvidenceStore) (hInv : LedgerInv s)
    (pos : Nat) (pr : MerkleProof) (r : Hash)
    (hpr : s.getProof pos = .ok pr) (hr : s.currentRoot = .ok r) :
    verifyProof pr (s.store.getD pos hashDefault) pos r = true := by
  have hne : s.rpeaks ≠ [] := by
    intro hnil
    rw [EvidenceStore.getProof, hnil] at hpr
    simp [genProofAux] at hpr
  obtain ⟨r0, hr0, hbag⟩ := currentRoot_eq s hne
  have hrr : r0 = r := by
    rw [hr0] at hr
    exact Except.ok.inj hr
  subst hrr
  have hgen : genProofAux s.rpeaks.reverse pos = some pr := by
    rw [EvidenceStore.getProof] at hpr
    cases hgp : genProofAux s.rpeaks.reverse pos with
    | none => rw [hgp] at hpr; exact absurd hpr (by simp)
    | some q =>
        rw [hgp] at hpr
        simp only [Except.ok.injEq] at hpr
        rw [hpr]
  have hwfrev : ∀ t ∈ s.rpeaks.reverse, t.wfB = true := by
    intro t ht
    exact hInv.wf t (List.mem_reverse.mp ht)
  have hparts := genProofAux_spec s.rpeaks.reverse pos pr hashDefault
    hwfrev hgen
  have hstore : s.store = (s.rpeaks.reverse.map PTree.post).flatten :=
    hInv.store_eq
  rw [hstore]
  apply verify_of_parts
  rw [hparts]
  exact hbag

/-- C1: for every ledger built by appending N >= 1 leaves and every
position i in [0, N) that holds a leaf, proof generation for i succeeds,
the current root exists, and verifying the generated proof with the leaf
hash stored at position i against the current root returns true. -/
theorem claim_c1_proof_roundtrip (leaves : List Hash) (i : Nat)
    (hN : 1 ≤ leaves.length) (hi : i < leaves.length)
    (hleaf : (build leaves).isLeafPos i = true) :
    ∃ pr r, (build leaves).getProof i = .ok pr ∧
      (build leaves).currentRoot = .ok r ∧
      verifyProof pr ((build leaves).store.getD i hashDefault) i r
        = true := by
  obtain ⟨hInv, hsz⟩ := build_inv leaves
  have hlt : i < (build leaves).mmr_size := by omega
  obtain ⟨pr, hpr⟩ := (getProof_cases _ hInv i).1 ⟨hlt, hleaf⟩
  have hne : (build leaves).rpeaks ≠ [] := by
    intro hnil
    have := size_zero_of_rpeaks_nil _ hInv hnil
    omega
  obtain ⟨r, hr, -⟩ := currentRoot_eq _ hne
  exact ⟨pr, r, hpr, hr, verify_roundtrip _ hInv i pr r hpr hr⟩

/-- Witness for C1 at the concrete three-leaf ledger and position 0. -/
theorem claim_c1_proof_roundtrip_witness :
    ∃ pr r,
      (build [Hash.ofBytes [0], Hash.ofBytes [1],
        Hash.ofBytes [2]]).getProof 0 = .ok pr ∧
      (build [Hash.ofBytes [0], Hash.ofBytes [1],
        Hash.ofBytes [2]]).currentRoot = .ok r ∧
      verifyProof pr
        ((build [Hash.ofBytes [0], Hash.ofBytes [1],
          Hash.ofBytes [2]]).store.getD 0 hashDefault) 0 r = true :=
  claim_c1_proof_roundtrip
    [Hash.ofBytes [0], Hash.ofBytes [1], Hash.ofBytes [2]] 0
    (by decide) (by decide) (by decide)

/-- C2: after any sequence of appends the persisted size equals the number
of stored nodes, so every position below the size has a stored hash. -/
theorem claim_c2_size_covered (leaves : List Hash) :
    (build leaves).mmr_size = (build leaves).store.length ∧
    ∀ i, i < (build leaves).mmr_size →
      ((build leaves).store[i]?).isSome = true := by
  obtain ⟨hInv, -⟩ := build_inv leaves
  refine ⟨hInv.size_eq, ?_⟩
  intro i hi
  have hlen : i < (build leaves).store.length := by
    rw [← hInv.size_eq]
    exact hi
  rw [List.getElem?_eq_getElem hlen]
  rfl

/-- Witness for C2 at a one-leaf ledger and position 0. -/
theorem claim_c2_size_covered_witness :
    ((build [Hash.ofBytes [0]]).store[0]?).isSome = true :=
  (claim_c2_size_covered [Hash.ofBytes [0]]).2 0 (by decide)

/-- C3: whenever `append` returns an error the ledger state is unchanged,
so retrying a failed append is safe. -/
theorem claim_c3_append_atomic (s : EvidenceStore) (ev : Evidence)
    (e : CoreError) (h : (s.append ev).2 = .error e) :
    (s.append ev).1 = s := by
  cases henc : encode ev with
  | error e0 => simp [EvidenceStore.append, henc]
  | ok payload =>
      exfalso
      have hrp : ((s.pushLeaf (Hash.ofBytes payload)).1).rpeaks =
          (carryGo (PTree.leaf (Hash.ofBytes payload) :: s.rpeaks).length
            (PTree.leaf (Hash.ofBytes payload) :: s.rpeaks)
            [Hash.ofBytes payload]).1 := rfl
      have hne : ((s.pushLeaf (Hash.ofBytes payload)).1).rpeaks ≠ [] := by
        rw [hrp]
        exact carryGo_ne_nil _ _ _ (by simp)
      obtain ⟨r, hr, -⟩ := currentRoot_eq _ hne
      rw [EvidenceStore.append] at h
      simp only [henc, hr] at h
      exact absurd h (by simp)

/-- Witness for C3: appending a malformed record to the fresh ledger
errors and leaves the state untouched. -/
theorem claim_c3_append_atomic_witness :
    ((EvidenceStore.new).append
        ⟨[112], [122], true, [48], [1], [109], [120], 0⟩).1 =
      EvidenceStore.new :=
  claim_c3_append_atomic EvidenceStore.new
    ⟨[112], [122], true, [48], [1], [109], [120], 0⟩
    .EncodingError (by decide)

/-- C4: the concrete three-leaf scenario.  Writing d0, d1, d2 for the leaf
digests of L0, L1, L2: after L0 the size is 1 and the root is d0; after L1
the internal node merge(d0,d1) exists, the size is 3 and the root is
merge(d0,d1); after L2 the size is 4, the peaks are merge(d0,d1) at
position 2 and d2 at position 3, and the root is merge(merge(d0,d1), d2);
the proof for position 0 is exactly [d1, d2], its climb recomputes
merge(d0,d1), and verification against the root returns true. -/
theorem claim_c4_three_leaf_scenario :
    (build [Hash.ofBytes [0]]).mmr_size = 1 ∧
    (build [Hash.ofBytes [0]]).currentRoot = .ok (Hash.ofBytes [0]) ∧
    (build [Hash.ofBytes [0], Hash.ofBytes [1]]).mmr_size = 3 ∧
    (build [Hash.ofBytes [0], Hash.ofBytes [1]]).store =
      [Hash.ofBytes [0], Hash.ofBytes [1],
        merge (Hash.ofBytes [0]) (Hash.ofBytes [1])] ∧
    (build [Hash.ofBytes [0], Hash.ofBytes [1]]).currentRoot =
      .ok (merge (Hash.ofBytes [0]) (Hash.ofBytes [1])) ∧
    (build [Hash.ofBytes [0], Hash.ofBytes [1],
      Hash.ofBytes [2]]).mmr_size = 4 ∧
    (build [Hash.ofBytes [0], Hash.ofBytes [1],
      Hash.ofBytes [2]]).peakPositions = [2, 3] ∧
    (build [Hash.ofBytes [0], Hash.ofBytes [1],
      Hash.ofBytes [2]]).rpeaks.reverse.map PTree.root =
      [merge (Hash.ofBytes [0]) (Hash.ofBytes [1]), Hash.ofBytes [2]] ∧
    (build [Hash.ofBytes [0], Hash.ofBytes [1],
      Hash.ofBytes [2]]).currentRoot =
      .ok (merge (merge (Hash.ofBytes [0]) (Hash.ofBytes [1]))
        (Hash.ofBytes [2])) ∧
    (build [Hash.ofBytes [0], Hash.ofBytes [1],
      Hash.ofBytes [2]]).getProof 0 =
      .ok ⟨[(Side.right, Hash.ofBytes [1])], [], [Hash.ofBytes [2]]⟩ ∧
    MerkleProof.items
        ⟨[(Side.right, Hash.ofBytes [1])], [], [Hash.ofBytes [2]]⟩ =
      [Hash.ofBytes [1], Hash.ofBytes [2]] ∧
    climb [(Side.right, Hash.ofBytes [1])] (Hash.ofBytes [0]) =
      merge (Hash.ofBytes [0]) (Hash.ofBytes [1]) ∧
    verifyProof
        ⟨[(Side.right, Hash.ofBytes [1])], [], [Hash.ofBytes [2]]⟩
        (Hash.ofBytes [0]) 0
        (merge (merge (Hash.ofBytes [0]) (Hash.ofBytes [1]))
          (Hash.ofBytes [2])) = true := by
  decide

/-- C5: `currentRoot` fails with `EmptyLedger` exactly on the empty
ledger; with a single peak it returns that peak's hash; in general it
returns the spec's right-fold of the peak hashes ordered tallest-leftmost
to shortest-rightmost. -/
theorem claim_c5_current_root_spec (leaves : List Hash) :
    ((build leaves).mmr_size = 0 →
      (build leaves).currentRoot = .error .EmptyLedger) ∧
    (∀ p : Hash,
      (build leaves).rpeaks.reverse.map PTree.root = [p] →
      (build leaves).currentRoot = .ok p) ∧
    (∀ r : Hash,
      bagTF ((build leaves).rpeaks.reverse.map PTree.root) = some r →
      (build leaves).currentRoot = .ok r) := by
  obtain ⟨hInv, -⟩ := build_inv leaves
  have hgen : ∀ r : Hash,
      bagTF ((build leaves).rpeaks.reverse.map PTree.root) = some r →
      (build leaves).currentRoot = .ok r := by
    intro r hbag
    have hne : (build leaves).rpeaks ≠ [] := by
      intro hnil
      rw [hnil] at hbag
      simp [bagTF] at hbag
    obtain ⟨r0, hr0, hbag0⟩ := currentRoot_eq _ hne
    rw [hbag0] at hbag
    simp only [Option.some.injEq] at hbag
    rw [hr0, hbag]
  refine ⟨?_, ?_, hgen⟩
  · intro h0
    have hnil := rpeaks_nil_of_size_zero _ hInv h0
    simp [EvidenceStore.currentRoot, hnil]
  · intro p hp
    exact hgen p (by rw [hp]; rfl)

/-- Witness for C5 on the three-leaf ledger: the root is the right-fold of
the two peaks. -/
theorem claim_c5_current_root_spec_witness :
    (build [Hash.ofBytes [0], Hash.ofBytes [1],
      Hash.ofBytes [2]]).currentRoot =
      .ok (merge (merge (Hash.ofBytes [0]) (Hash.ofBytes [1]))
        (Hash.ofBytes [2])) :=
  (claim_c5_current_root_spec
    [Hash.ofBytes [0], Hash.ofBytes [1], Hash.ofBytes [2]]).2.2
    (merge (merge (Hash.ofBytes [0]) (Hash.ofBytes [1]))
      (Hash.ofBytes [2])) (by decide)

/-- C6: the merge strategy is the fixed hash of the concatenation of its
two arguments, it is what every internal node of every reachable ledger
stores, and it is not commutative: distinct arguments swapped give a
different parent hash. -/
theorem claim_c6_merge_strategy :
    (∀ l r : Hash, merge l r = Hash.ofPair l r) ∧
    (∀ leaves : List Hash, ∀ t ∈ (build leaves).rpeaks,
      PTree.wfB t = true) ∧
    (∀ l r : Hash, l ≠ r → merge l r ≠ merge r l) := by
  refine ⟨fun l r => rfl, ?_, ?_⟩
  · intro leaves t ht
    exact (build_inv leaves).1.wf t ht
  · intro l r hne heq
    simp only [merge, Hash.ofPair.injEq] at heq
    exact hne heq.1

/-- Witness for C6: two distinct digests merge differently in the two
orders. -/
theorem claim_c6_merge_strategy_witness :
    merge (Hash.ofBytes [0]) (Hash.ofBytes [1]) ≠
      merge (Hash.ofBytes [1]) (Hash.ofBytes [0]) :=
  claim_c6_merge_strategy.2.2 (Hash.ofBytes [0]) (Hash.ofBytes [1])
    (by decide)

/-- C7: a proof request fails with `InvalidProofRequest` when the position
is at or beyond the current size or holds an internal node, and succeeds
for every in-range leaf position. -/
theorem claim_c7_get_proof_validation (leaves : List Hash) (pos : Nat) :
    ((build leaves).mmr_size ≤ pos ∨
        (build leaves).isLeafPos pos = false →
      (build leaves).getProof pos = .error .InvalidProofRequest) ∧
    (pos < (build leaves).mmr_size ∧
        (build leaves).isLeafPos pos = true →
      ∃ pr, (build leaves).getProof pos = .ok pr) := by
  obtain ⟨hInv, -⟩ := build_inv leaves
  exact ⟨(getProof_cases _ hInv pos).2, (getProof_cases _ hInv pos).1⟩

/-- Witness for C7: on the three-leaf ledger position 2 (the internal
node) is rejected. -/
theorem claim_c7_get_proof_validation_witness :
    (build [Hash.ofBytes [0], Hash.ofBytes [1],
      Hash.ofBytes [2]]).getProof 2 = .error .InvalidProofRequest :=
  (claim_c7_get_proof_validation
    [Hash.ofBytes [0], Hash.ofBytes [1], Hash.ofBytes [2]] 2).1
    (by decide)

theorem maxPHgo_eq (size h : Nat) (h1 : 2 ^ (h + 1) - 1 ≤ size)
    (h2 : size < 2 ^ (h + 2) - 1) :
    ∀ (fuel h0 : Nat), h0 ≤ h → h - h0 ≤ fuel →
      maxPHgo size fuel h0 = h := by
  intro fuel
  induction fuel with
  | zero =>
      intro h0 hle hf
      have he : h0 = h := by omega
      simp [maxPHgo, he]
  | succ fuel ih =>
      intro h0 hle hf
      by_cases he : h0 = h
      · subst he
        have hnc : ¬(2 ^ (h0 + 2) - 1 ≤ size) := by omega
        simp [maxPHgo, hnc]
      · have hlt : h0 < h := by omega
        have hmono : 2 ^ (h0 + 2) ≤ 2 ^ (h + 1) :=
          Nat.pow_le_pow_right (by omega) (by omega)
        have hcond : 2 ^ (h0 + 2) - 1 ≤ size := by omega
        simp only [maxPHgo, if_pos hcond]
        exact ih (h0 + 1) (by omega) (by omega)

theorem maxPH_eq (size h : Nat) (h1 : 2 ^ (h + 1) - 1 ≤ size)
    (h2 : size < 2 ^ (h + 2) - 1) : maxPH size = h := by
  have hp : h + 1 < 2 ^ (h + 1) := Nat.lt_two_pow (h + 1)
  exact maxPHgo_eq size h h1 h2 size 0 (by omega) (by omega)

theorem rebuildTree_post (t : PTree) (hwf : t.wfB = true) :
    rebuildTree t.height t.post = t := by
  induction t with
  | leaf h => rfl
  | node h l r ihl ihr =>
      obtain ⟨hm, hh, hl, hr⟩ := PTree.wfB_node hwf
      have el : l.post.length = 2 ^ (l.height + 1) - 1 := by
        rw [l.post_length, l.size_of_wfB hl]
      have er : r.post.length = 2 ^ (l.height + 1) - 1 := by
        rw [r.post_length, r.size_of_wfB hr, hh]
      simp only [PTree.height, PTree.post, rebuildTree]
      have htake : (l.post ++ r.post ++ [h]).take (2 ^ (l.height + 1) - 1)
          = l.post := by
        rw [← el, List.append_assoc]
        exact List.take_left _ _
      have hdrop : (l.post ++ r.post ++ [h]).drop (2 ^ (l.height + 1) - 1)
          = r.post ++ [h] := by
        rw [← el, List.append_assoc]
        exact List.drop_left _ _
      have htake2 : (r.post ++ [h]).take (2 ^ (l.height + 1) - 1)
          = r.post := by
        rw [← er]
        exact List.take_left _ _
      have hlast : (l.post ++ r.post ++ [h]).getLastD hashDefault = h := by
        simp
      rw [htake, hdrop, htake2, hlast, ihl hl, hh, ihr hr]

theorem sum_sizes_lt (ts : List PTree) (h0 : Nat)
    (hwf : ∀ t ∈ ts, t.wfB = true)
    (hpw : List.Pairwise (fun a b => PTree.height b < PTree.height a) ts)
    (hbound : ∀ t ∈ ts, t.height < h0) :
    (ts.map PTree.size).sum < 2 ^ (h0 + 1) - 1 := by
  induction ts generalizing h0 with
  | nil =>
      simp only [List.map_nil, List.sum_nil]
      have h2 : (2 : Nat) ^ 1 ≤ 2 ^ (h0 + 1) :=
        Nat.pow_le_pow_right (by omega) (by omega)
      simp only [pow_one] at h2
      omega
  | cons t ts ih =>
      rw [List.pairwise_cons] at hpw
      have hsub := ih t.height (fun u hu => hwf u (by simp [hu])) hpw.2
        (fun u hu => hpw.1 u hu)
      have hsz : t.size = 2 ^ (t.height + 1) - 1 :=
        t.size_of_wfB (hwf t (by simp))
      have hth : t.height < h0 := hbound t (by simp)
      have hp1 : 2 ^ (t.height + 2) ≤ 2 ^ (h0 + 1) :=
        Nat.pow_le_pow_right (by omega) (by omega)
      have hp2 : 1 ≤ 2 ^ (t.height + 1) := Nat.one_le_two_pow
      have hp3 : 2 ^ (t.height + 2) = 2 ^ (t.height + 1) * 2 := pow_succ 2 _
      simp only [List.map_cons, List.sum_cons]
      omega

theorem rebuildForestGo_eq :
    ∀ (ts : List PTree) (fuel : Nat),
      (ts.map PTree.size).sum ≤ fuel →
      (∀ t ∈ ts, t.wfB = true) →
      List.Pairwise (fun a b => PTree.height b < PTree.height a) ts →
      rebuildForestGo fuel ((ts.map PTree.size).sum)
        ((ts.map PTree.post).flatten) = ts
  | [], fuel, hfuel, hwf, hpw => by
      cases fuel <;> simp [rebuildForestGo]
  | t :: ts, fuel, hfuel, hwf, hpw => by
      rw [List.pairwise_cons] at hpw
      have hwt := hwf t (by simp)
      have hsz : t.size = 2 ^ (t.height + 1) - 1 := t.size_of_wfB hwt
      have hpos := t.size_pos
      have hrest : (ts.map PTree.size).sum < 2 ^ (t.height + 1) - 1 :=
        sum_sizes_lt ts t.height (fun u hu => hwf u (by simp [hu])) hpw.2
          (fun u hu => hpw.1 u hu)
      have hS : ((t :: ts).map PTree.size).sum
          = t.size + (ts.map PTree.size).sum := by
        simp
      obtain ⟨fuel', rfl⟩ : ∃ f, fuel = f + 1 := by
        refine ⟨fuel - 1, ?_⟩
        have := t.size_pos
        rw [hS] at hfuel
        omega
      have hS0 : ((t :: ts).map PTree.size).sum ≠ 0 := by
        rw [hS]; omega
      have hp3 : 2 ^ (t.height + 2) = 2 ^ (t.height + 1) * 2 := pow_succ 2 _
      have hmax : maxPH (((t :: ts).map PTree.size).sum) = t.height := by
        apply maxPH_eq
        · rw [hS]; omega
        · rw [hS]; omega
      have hflat : ((t :: ts).map PTree.post).flatten
          = t.post ++ (ts.map PTree.post).flatten := by
        simp
      have hplen : t.post.length = 2 ^ (t.height + 1) - 1 := by
        rw [t.post_length, hsz]
      have htake : (((t :: ts).map PTree.post).flatten).take
          (2 ^ (t.height + 1) - 1) = t.post := by
        rw [hflat, ← hplen]
        exact List.take_left _ _
      have hdrop : (((t :: ts).map PTree.post).flatten).drop
          (2 ^ (t.height + 1) - 1) = (ts.map PTree.post).flatten := by
        rw [hflat, ← hplen]
        exact List.drop_left _ _
      have hgo : rebuildForestGo (fuel' + 1) (((t :: ts).map PTree.size).sum)
          (((t :: ts).map PTree.post).flatten)
          = rebuildTree t.height
              ((((t :: ts).map PTree.post).flatten).take
                (2 ^ (t.height + 1) - 1)) ::
            rebuildForestGo fuel'
              (((t :: ts).map PTree.size).sum - (2 ^ (t.height + 1) - 1))
              ((((t :: ts).map PTree.post).flatten).drop
                (2 ^ (t.height + 1) - 1)) := by
        simp only [rebuildForestGo, if_neg hS0, hmax]
      rw [hgo, htake, hdrop, rebuildTree_post t hwt]
      have hsub : ((t :: ts).map PTree.size).sum - (2 ^ (t.height + 1) - 1)
          = (ts.map PTree.size).sum := by
        rw [hS]; omega
      rw [hsub]
      rw [rebuildForestGo_eq ts fuel' (by rw [hS] at hfuel; omega)
        (fun u hu => hwf u (by simp [hu])) hpw.2]

theorem rpeaks_reverse_pairwise (s : EvidenceStore) (hInv : LedgerInv s) :
    List.Pairwise (fun a b => PTree.height b < PTree.height a)
      s.rpeaks.reverse := by
  have hch : List.Chain'
      (fun a b => PTree.height b < PTree.height a) s.rpeaks.reverse := by
    rw [List.chain'_reverse]
    exact hInv.chain
  haveI : IsTrans PTree (fun a b => PTree.height b < PTree.height a) :=
    ⟨fun a b c hab hbc => Nat.lt_trans hbc hab⟩
  exact List.chain'_iff_pairwise.mp hch

theorem rebuildForest_peaks (s : EvidenceStore) (hInv : LedgerInv s) :
    rebuildForest s.mmr_size s.store = s.rpeaks.reverse := by
  have hwf : ∀ t ∈ s.rpeaks.reverse, t.wfB = true := by
    intro t ht
    exact hInv.wf t (List.mem_reverse.mp ht)
  have hsum := size_sum_eq s hInv
  have hflat : s.store = ((s.rpeaks.reverse).map PTree.post).flatten :=
    hInv.store_eq
  rw [rebuildForest, ← hsum, hflat]
  exact rebuildForestGo_eq s.rpeaks.reverse _ (Nat.le_refl _) hwf
    (rpeaks_reverse_pairwise s hInv)

theorem reopen_eq (s : EvidenceStore) (hInv : LedgerInv s) :
    reopen s.mmr_size s.store = s := by
  rw [reopen, rebuildForest_peaks s hInv, List.reverse_reverse]

/-- C8: closing the ledger and reopening it from the persisted state (the
durable size plus the durable position-to-hash map) reproduces an
identical root and identical proofs for every position. -/
theorem claim_c8_restart_idempotent (leaves : List Hash) :
    (reopen (build leaves).mmr_size (build leaves).store).currentRoot =
      (build leaves).currentRoot ∧
    ∀ pos : Nat,
      (reopen (build leaves).mmr_size (build leaves).store).getProof pos =
        (build leaves).getProof pos := by
  have h := reopen_eq _ (build_inv leaves).1
  rw [h]
  exact ⟨rfl, fun _ => rfl⟩

theorem u32be_inj (n m : Nat) (hn : n < 2 ^ 32) (hm : m < 2 ^ 32)
    (h : u32be n = u32be m) : n = m := by
  simp only [u32be, List.cons.injEq, and_true] at h
  omega

theorem u64be_inj (n m : Nat) (hn : n < 2 ^ 64) (hm : m < 2 ^ 64)
    (h : u64be n = u64be m) : n = m := by
  simp only [u64be, List.cons.injEq, and_true] at h
  omega

theorem emod_two_pow_char (x : Int) (h1 : -(2 ^ 63) ≤ x) (h2 : x < 2 ^ 63) :
    x.emod (2 ^ 64) = if 0 ≤ x then x else x + 2 ^ 64 := by
  by_cases h0 : 0 ≤ x
  · rw [if_pos h0]
    exact Int.emod_eq_of_lt h0 (by omega)
  · rw [if_neg h0]
    have he : (x + 2 ^ 64 * 1).emod (2 ^ 64) = x.emod (2 ^ 64) :=
      Int.add_mul_emod_self_left x (2 ^ 64) 1
    have he2 : (x + 2 ^ 64).emod (2 ^ 64) = x + 2 ^ 64 :=
      Int.emod_eq_of_lt (by omega) (by omega)
    calc x.emod (2 ^ 64) = (x + 2 ^ 64 * 1).emod (2 ^ 64) := he.symm
      _ = (x + 2 ^ 64).emod (2 ^ 64) := by norm_num
      _ = x + 2 ^ 64 := he2

theorem i64be_inj (s t : Int) (hs1 : -(2 ^ 63) ≤ s) (hs2 : s < 2 ^ 63)
    (ht1 : -(2 ^ 63) ≤ t) (ht2 : t < 2 ^ 63) (h : i64be s = i64be t) :
    s = t := by
  have hpos : (0 : Int) < 2 ^ 64 := by positivity
  have hnn1 : 0 ≤ s.emod (2 ^ 64) := Int.emod_nonneg s (by positivity)
  have hnn2 : 0 ≤ t.emod (2 ^ 64) := Int.emod_nonneg t (by positivity)
  have hub1 : s.emod (2 ^ 64) < 2 ^ 64 := Int.emod_lt_of_pos s hpos
  have hub2 : t.emod (2 ^ 64) < 2 ^ 64 := Int.emod_lt_of_pos t hpos
  have hN : (s.emod (2 ^ 64)).toNat = (t.emod (2 ^ 64)).toNat :=
    u64be_inj _ _ (by omega) (by omega) h
  have hI : s.emod (2 ^ 64) = t.emod (2 ^ 64) := by omega
  rw [emod_two_pow_char s hs1 hs2, emod_two_pow_char t ht1 ht2] at hI
  by_cases h0s : 0 ≤ s <;> by_cases h0t : 0 ≤ t <;>
    simp only [if_pos, if_neg, h0s, h0t, if_true, if_false] at hI <;>
    omega

theorem lenPrefixed_cancel (xs ys a b : List Nat)
    (hx : xs.length < 2 ^ 32) (hy : ys.length < 2 ^ 32)
    (h : lenPrefixed xs ++ a = lenPrefixed ys ++ b) :
    xs = ys ∧ a = b := by
  rw [lenPrefixed, lenPrefixed, List.append_assoc, List.append_assoc] at h
  obtain ⟨hlen, hrest⟩ := List.append_inj h rfl
  have hxy : xs.length = ys.length := u32be_inj _ _ hx hy hlen
  exact List.append_inj hrest hxy

theorem u32blocks_cancel :
    ∀ (vs ws a b : List Nat),
      vs.length = ws.length →
      (∀ v ∈ vs, v < 2 ^ 32) → (∀ w ∈ ws, w < 2 ^ 32) →
      (vs.map u32be).flatten ++ a = (ws.map u32be).flatten ++ b →
      vs = ws ∧ a = b
  | [], [], a, b, _, _, _, h => ⟨rfl, by simpa using h⟩
  | [], w :: ws, _, _, hlen, _, _, _ => by simp at hlen
  | v :: vs, [], _, _, hlen, _, _, _ => by simp at hlen
  | v :: vs, w :: ws, a, b, hlen, hv, hw, h => by
      simp only [List.map_cons, List.flatten_cons, List.append_assoc] at h
      obtain ⟨h1, h2⟩ := List.append_inj h rfl
      have hvw : v = w :=
        u32be_inj _ _ (hv v (by simp)) (hw w (by simp)) h1
      obtain ⟨h3, h4⟩ := u32blocks_cancel vs ws a b (by simpa using hlen)
        (fun u hu => hv u (by simp [hu])) (fun u hu => hw u (by simp [hu]))
        h2
      exact ⟨by rw [hvw, h3], h4⟩

theorem u32seq_cancel (vs ws a b : List Nat)
    (hvl : vs.length < 2 ^ 32) (hwl : ws.length < 2 ^ 32)
    (hv : ∀ v ∈ vs, v < 2 ^ 32) (hw : ∀ w ∈ ws, w < 2 ^ 32)
    (h : u32seq vs ++ a = u32seq ws ++ b) : vs = ws ∧ a = b := by
  rw [u32seq, u32seq, List.append_assoc, List.append_assoc] at h
  obtain ⟨hlen, hrest⟩ := List.append_inj h rfl
  have hl : vs.length = ws.length := u32be_inj _ _ hvl hwl hlen
  exact u32blocks_cancel vs ws a b hl hv hw hrest

theorem wellFormed_parts (r : Evidence) (h : r.wellFormed = true) :
    r.image_phash.length < 2 ^ 32 ∧ r.image_sha256.length < 2 ^ 32 ∧
    r.confidence.length < 2 ^ 32 ∧ r.activated_prompts.length < 2 ^ 32 ∧
    (∀ v ∈ r.activated_prompts, v < 2 ^ 32) ∧
    r.prompt_pool_hash.length < 2 ^ 32 ∧
    r.external_knowledge_hash.length < 2 ^ 32 ∧
    -(2 ^ 63) ≤ r.timestamp ∧ r.timestamp < 2 ^ 63 := by
  simp only [Evidence.wellFormed, validBytes, Bool.and_eq_true,
    decide_eq_true_eq, List.all_eq_true] at h
  obtain ⟨⟨⟨⟨⟨⟨hA, hB⟩, hC⟩, hD⟩, hE⟩, hF⟩, hG⟩ := h
  have hsha := hB.1
  refine ⟨hA.2, by omega, hC.2, hD.1, ?_, hE.2, hF.2, hG.1, hG.2⟩
  intro v hv
  exact hD.2 v hv

theorem encodeBytes_inj (r1 r2 : Evidence)
    (h1 : r1.wellFormed = true) (h2 : r2.wellFormed = true)
    (h : encodeBytes r1 = encodeBytes r2) : r1 = r2 := by
  obtain ⟨p1, s1, c1, a1, av1, q1, e1, t1a, t1b⟩ := wellFormed_parts r1 h1
  obtain ⟨p2, s2, c2, a2, av2, q2, e2, t2a, t2b⟩ := wellFormed_parts r2 h2
  simp only [encodeBytes, List.cons.injEq, true_and] at h
  obtain ⟨hph, h⟩ := lenPrefixed_cancel _ _ _ _ p1 p2 h
  obtain ⟨hsha, h⟩ := lenPrefixed_cancel _ _ _ _ s1 s2 h
  rw [List.cons.injEq] at h
  obtain ⟨hvd, h⟩ := h
  have hverdict : r1.verdict = r2.verdict := by
    cases hv1 : r1.verdict <;> cases hv2 : r2.verdict
    · rfl
    · rw [hv1, hv2] at hvd
      exact absurd hvd (by decide)
    · rw [hv1, hv2] at hvd
      exact absurd hvd (by decide)
    · rfl
  obtain ⟨hconf, h⟩ := lenPrefixed_cancel _ _ _ _ c1 c2 h
  obtain ⟨hpr, h⟩ := u32seq_cancel _ _ _ _ a1 a2 av1 av2 h
  obtain ⟨hpool, h⟩ := lenPrefixed_cancel _ _ _ _ q1 q2 h
  obtain ⟨hext, h⟩ := lenPrefixed_cancel _ _ _ _ e1 e2 h
  have htime : r1.timestamp = r2.timestamp :=
    i64be_inj _ _ t1a t1b t2a t2b h
  cases r1
  cases r2
  simp_all

/-- C9: the canonical record encoding is pure and deterministic, and on
well-formed records it is injective: two records that encode to the same
bytes are equal, so changing any field of a record changes its encoded
bytes and hence its leaf digest. -/
theorem claim_c9_encoding_injective :
    (∀ r : Evidence, encode r = encode r) ∧
    (∀ (r1 r2 : Evidence) (b : List Nat),
      encode r1 = .ok b → encode r2 = .ok b → r1 = r2) := by
  refine ⟨fun r => rfl, ?_⟩
  intro r1 r2 b hb1 hb2
  by_cases h1 : r1.wellFormed
  · by_cases h2 : r2.wellFormed
    · rw [encode, if_pos h1] at hb1
      rw [encode, if_pos h2] at hb2
      apply encodeBytes_inj r1 r2 h1 h2
      rw [Except.ok.inj hb1, Except.ok.inj hb2]
    · rw [encode, if_neg h2] at hb2
      exact absurd hb2 (by simp)
  · rw [encode, if_neg h1] at hb1
    exact absurd hb1 (by simp)

/-- Witness for C9 at a concrete well-formed record. -/
theorem claim_c9_encoding_injective_witness : evGood = evGood :=
  claim_c9_encoding_injective.2 evGood evGood (encodeBytes evGood)
    (by decide) (by decide)

/-- C10: the encoder rejects malformed records with `EncodingError` and
the rejection happens before any hashing or storage (the ledger state is
unchanged and the error is surfaced); well-formed records are never
rejected. -/
theorem claim_c10_encoder_rejects_malformed :
    (∀ r : Evidence, r.wellFormed = false →
      encode r = .error .EncodingError ∧
      ∀ s : EvidenceStore, (s.append r).1 = s ∧
        (s.append r).2 = .error .EncodingError) ∧
    (∀ r : Evidence, r.wellFormed = true →
      encode r = .ok (encodeBytes r)) := by
  constructor
  · intro r hr
    have he : encode r = .error .EncodingError := by
      rw [encode, if_neg (by simp [hr])]
    refine ⟨he, fun s => ?_⟩
    constructor <;> simp [EvidenceStore.append, he]
  · intro r hr
    rw [encode, if_pos hr]

/-- Witness for C10: the malformed record is rejected and leaves the fresh
ledger unchanged, and the well-formed record is encoded. -/
theorem claim_c10_encoder_rejects_malformed_witness :
    encode evBad = .error .EncodingError ∧
      (EvidenceStore.new.append evBad).1 = EvidenceStore.new ∧
      encode evGood = .ok (encodeBytes evGood) := by
  have hbad := claim_c10_encoder_rejects_malformed.1 evBad (by decide)
  have hgood := claim_c10_encoder_rejects_malformed.2 evGood (by decide)
  exact ⟨hbad.1, (hbad.2 EvidenceStore.new).1, hgood⟩
